import Mathlib

/-!
Verification of the workflow orchestration core of the brandAGI repository.

The definitions below are a shallow embedding of the TypeScript sources:
  * `src/lib/orchestrator/workflow-parser.ts`  (graph loader / validation)
  * `src/lib/orchestrator/state-manager.ts`    (execution state store)
  * `src/lib/orchestrator/index.ts`            (node executor / scheduler)
  * `src/agents/strategy-agent.ts` (`processStrategyDecision`, decision approval)

Asynchronous database code is embedded as pure state passing on a `Sys`
record holding the single per-project `WorkflowState` row, the `decisions`
table, and an append-only log of completion side effects.  Delegate units
("agents") are opaque per the design and are modelled as pure functions
from the attempt index to an `AgentResult`.  Backoff sleeps are recorded
in an output list of sleep durations (milliseconds) instead of elapsing.
-/

namespace BrandAGI

/-! ## Data model (`src/lib/common/schemas`: WorkflowNodeSchema, WorkflowSchema) -/

/-- `retryPolicy` object of a workflow node (`maxRetries`, `backoffMs`). -/
structure RetryPolicy where
  maxRetries : Nat
  backoffMs : Nat
deriving DecidableEq

/-- One node of the workflow graph, as produced by `parseWorkflowYAML`. -/
structure WorkflowNode where
  id : String
  name : String
  agentId : String
  dependencies : List String
  requiresApproval : Bool
  retryPolicy : Option RetryPolicy
  runQA : Bool
  runCodeReview : Bool
deriving DecidableEq

/-- A workflow: named, ordered collection of nodes. -/
structure Workflow where
  name : String
  nodes : List WorkflowNode
deriving DecidableEq

/-! ## Execution state (`state-manager.ts`)

The DB row also carries `id`, `projectId`, `metadata` and timestamps;
none of them affects control flow, so they are not part of the record. -/

/-- `WorkflowStatus` from `src/lib/common/schemas`. -/
inductive WStatus
  | running
  | paused
  | completed
  | failed
deriving DecidableEq

/-- The mutable execution-state record of one run (`WorkflowState`). -/
structure WorkflowState where
  currentNode : Option String
  completedNodes : List String
  failedNodes : List String
  pendingDecisions : List String
  status : WStatus
deriving DecidableEq

/-- `createWorkflowState`: fresh record with empty sets and status `running`. -/
def freshWorkflowState : WorkflowState :=
  { currentNode := none
    completedNodes := []
    failedNodes := []
    pendingDecisions := []
    status := .running }

/-- `markNodeComplete`: append to `completedNodes`, clear `currentNode`. -/
def markNodeComplete (s : WorkflowState) (nodeId : String) : WorkflowState :=
  { s with completedNodes := s.completedNodes ++ [nodeId], currentNode := none }

/-- `markNodeFailed`: append to `failedNodes`, clear `currentNode`, set status `failed`. -/
def markNodeFailed (s : WorkflowState) (nodeId : String) : WorkflowState :=
  { s with failedNodes := s.failedNodes ++ [nodeId], currentNode := none, status := .failed }

/-- `addPendingDecision`: append the decision id and set status `paused`. -/
def addPendingDecision (s : WorkflowState) (decisionId : String) : WorkflowState :=
  { s with pendingDecisions := s.pendingDecisions ++ [decisionId], status := .paused }

/-- `removePendingDecision`: filter the id out; status `paused` when decisions
remain, else `running`. -/
def removePendingDecision (s : WorkflowState) (decisionId : String) : WorkflowState :=
  let pending := s.pendingDecisions.filter (fun x => x ≠ decisionId)
  { s with pendingDecisions := pending
           status := if pending.length > 0 then .paused else .running }

/-- `setCurrentNode`. -/
def setCurrentNode (s : WorkflowState) (nodeId : String) : WorkflowState :=
  { s with currentNode := some nodeId }

/-- `completeWorkflow`: status `completed`, clear `currentNode`. -/
def completeWorkflow (s : WorkflowState) : WorkflowState :=
  { s with status := .completed, currentNode := none }

/-- `cancelWorkflow` (the `stop` operation): status `failed`, clear `currentNode`. -/
def cancelWorkflow (s : WorkflowState) : WorkflowState :=
  { s with status := .failed, currentNode := none }

/-! ## Workflow parser (`workflow-parser.ts`) -/

/-- `areDependenciesSatisfied`: every dependency is in `completedNodes`. -/
def areDependenciesSatisfied (node : WorkflowNode) (completedNodes : List String) : Bool :=
  node.dependencies.all (fun dep => completedNodes.contains dep)

/-- `getNextNodes`: nodes neither completed nor failed whose dependencies are
all completed. -/
def getNextNodes (w : Workflow) (completedNodes failedNodes : List String) :
    List WorkflowNode :=
  w.nodes.filter (fun node =>
    if completedNodes.contains node.id || failedNodes.contains node.id then false
    else areDependenciesSatisfied node completedNodes)

/-! ## Node executor (`executeNode` in `index.ts`)

The delegate (`runAgent`) returns `{success, data, ...}`; the executor only
inspects `success` and whether `data` is a non-null object carrying a
`decision_id` key, which is what `AgentData` captures.  The QA and code-review
collaborators are advisory: their verdicts are logged and never alter state or
control flow, so they do not appear in the embedding. -/

/-- The part of the delegate's `data` payload the executor inspects:
`decisionId = some d` iff the payload object has a `decision_id` key `d`. -/
structure AgentData where
  decisionId : Option String
deriving DecidableEq

/-- Delegate output: `success` flag and optional data payload
(`data = none` models a null/absent payload). -/
structure AgentResult where
  success : Bool
  data : Option AgentData
deriving DecidableEq

/-- A delegate unit: result of each invocation, indexed by attempt number. -/
abbrev Delegate := Nat → AgentResult

/-- Outcome of one `executeNode` call. -/
inductive NodeOutcome
  | completed
  | awaitingApproval (decisionId : String)
  | failed
deriving DecidableEq

/-- `node.retryPolicy?.maxRetries || 0`. -/
def effMaxRetries (node : WorkflowNode) : Nat :=
  match node.retryPolicy with
  | none => 0
  | some p => p.maxRetries

/-- `node.retryPolicy?.backoffMs || 1000`: absent policy or a zero (falsy)
`backoffMs` yields 1000. -/
def effBackoffMs (node : WorkflowNode) : Nat :=
  match node.retryPolicy with
  | none => 1000
  | some p => if p.backoffMs = 0 then 1000 else p.backoffMs

/-- Result of `executeNode`: outcome, updated state, number of delegate
invocations performed, and the list of backoff sleeps (ms) in order. -/
structure ExecResult where
  outcome : NodeOutcome
  state : WorkflowState
  invocations : Nat
  sleeps : List Nat
deriving DecidableEq

/-- The retry loop of `executeNode` (`while (retries <= maxRetries)`).
`retries` is the current attempt counter; `fuel` is `maxRetries + 1 - retries`
at every call, so the `fuel = 0` branch is unreachable.  On a thrown or
unsuccessful result the counter is incremented and, while
`retries + 1 ≤ maxRetries`, the loop sleeps `backoffMs * 2 ^ (retries' - 1)`
and retries; exhaustion marks the node failed. -/
def execGo (node : WorkflowNode) (delegate : Delegate) (maxRetries backoffMs : Nat) :
    Nat → Nat → WorkflowState → ExecResult
  | _, 0, s => ⟨.failed, markNodeFailed s node.id, 0, []⟩
  | retries, fuel + 1, s =>
    let r := delegate retries
    if r.success then
      match node.requiresApproval, r.data with
      | true, some d =>
        match d.decisionId with
        | some decisionId =>
          ⟨.awaitingApproval decisionId, addPendingDecision s decisionId, 1, []⟩
        | none => ⟨.completed, markNodeComplete s node.id, 1, []⟩
      | _, _ => ⟨.completed, markNodeComplete s node.id, 1, []⟩
    else
      let retries' := retries + 1
      if retries' ≤ maxRetries then
        let delay := backoffMs * 2 ^ (retries' - 1)
        let rest := execGo node delegate maxRetries backoffMs retries' fuel s
        ⟨rest.outcome, rest.state, rest.invocations + 1, delay :: rest.sleeps⟩
      else ⟨.failed, markNodeFailed s node.id, 1, []⟩

/-- `executeNode`: record `currentNode`, then run the retry loop. -/
def executeNode (node : WorkflowNode) (delegate : Delegate) (s : WorkflowState) :
    ExecResult :=
  execGo node delegate (effMaxRetries node) (effBackoffMs node) 0
    (effMaxRetries node + 1) (setCurrentNode s node.id)

/-! ## Scheduler and decision approval (`index.ts`, `strategy-agent.ts`)

`Sys` bundles the durable stores: the per-project `workflowStates` row
(`none` when absent), the `decisions` table, an append-only log of
completion side effects (calendar generation / artifact storage performed by
`processStrategyDecision`), and a counter of `createWorkflowState` calls. -/

/-- A row of the `decisions` table; `options` holds the ids of the decision's
options (from `metadata.options`). -/
structure Decision where
  id : String
  options : List String
  status : String
  selectedOption : Option String
deriving DecidableEq

/-- The durable stores reachable from the orchestrator. -/
structure Sys where
  wfState : Option WorkflowState
  decisions : List Decision
  effects : List String
  created : Nat
deriving DecidableEq

/-- Delegate environment: `runAgent` keyed by `agentId`, per attempt index. -/
abbrev AgentEnv := String → Delegate

/-- Return value of `executeNextNodes`, one constructor per `return` site. -/
inductive RunResp
  | pausedPending (pending : List String)
  | terminalSnap (status : WStatus) (completedNodes failedNodes : List String)
  | completedSnap (completedNodes : List String)
  | pausedApproval
  | stateMissing
deriving DecidableEq

/-- The sequential batch loop of `executeNextNodes`: execute each node; stop
early (with flag `true`) as soon as an outcome requires approval. -/
def execBatch (env : AgentEnv) : List WorkflowNode → WorkflowState → WorkflowState × Bool
  | [], s => (s, false)
  | n :: ns, s =>
    let res := executeNode n (env n.agentId) s
    match res.outcome with
    | .awaitingApproval _ => (res.state, true)
    | _ => execBatch env ns res.state

/-- `executeNextNodes`: the run loop.  Reads state (throwing when absent,
modelled by `stateMissing`), returns immediately on `paused` or terminal
status, completes the workflow when no node is eligible, otherwise executes
the eligible batch sequentially and recurses unless a node paused the run.
`fuel` bounds the recursion (`none` = fuel exhausted, unreachable for
sufficiently large fuel). -/
def executeNextNodes (w : Workflow) (env : AgentEnv) :
    Nat → Sys → Option (RunResp × Sys)
  | 0, _ => none
  | fuel + 1, sys =>
    match sys.wfState with
    | none => some (.stateMissing, sys)
    | some st =>
      if st.status = .paused then
        some (.pausedPending st.pendingDecisions, sys)
      else if st.status = .completed ∨ st.status = .failed then
        some (.terminalSnap st.status st.completedNodes st.failedNodes, sys)
      else
        match getNextNodes w st.completedNodes st.failedNodes with
        | [] =>
          some (.completedSnap st.completedNodes,
            { sys with wfState := some (completeWorkflow st) })
        | n :: ns =>
          let batch := execBatch env (n :: ns) st
          let sys' := { sys with wfState := some batch.1 }
          if batch.2 then some (.pausedApproval, sys')
          else executeNextNodes w env fuel sys'

/-- `startWorkflow`: resume when existing state is `running`/`paused`;
otherwise (terminal or absent state) delete any old row and create a fresh
one, then enter the run loop. -/
def startWorkflow (w : Workflow) (env : AgentEnv) (fuel : Nat) (sys : Sys) :
    Option (RunResp × Sys) :=
  match sys.wfState with
  | some st =>
    if st.status = .running ∨ st.status = .paused then
      executeNextNodes w env fuel sys
    else
      executeNextNodes w env fuel
        { sys with wfState := some freshWorkflowState, created := sys.created + 1 }
  | none =>
    executeNextNodes w env fuel
      { sys with wfState := some freshWorkflowState, created := sys.created + 1 }

/-- Result of `processStrategyDecision`: `ok` on success, otherwise the
message of the caught error (`success:false` return). -/
inductive StratResult
  | ok
  | errMsg (msg : String)
deriving DecidableEq

/-- `processStrategyDecision` (strategy agent): look the decision up
(error when missing), validate the selected option against the decision's
options (error when invalid), then mark the decision approved and perform the
completion side effects (calendar generation, artifact storage), recorded in
`effects`. -/
def processStrategyDecision (sys : Sys) (decisionId selectedOption : String) :
    StratResult × Sys :=
  match sys.decisions.find? (fun d => d.id == decisionId) with
  | none => (.errMsg ("Decision not found: " ++ decisionId), sys)
  | some dec =>
    if dec.options.contains selectedOption then
      let decisions' := sys.decisions.map (fun d =>
        if d.id == decisionId then
          { d with status := "approved", selectedOption := some selectedOption }
        else d)
      (.ok, { sys with
                decisions := decisions'
                effects := sys.effects ++ ["strategy_approved:" ++ decisionId] })
    else (.errMsg ("Invalid option selected: " ++ selectedOption), sys)

/-- Return value of `approveDecision`. -/
inductive ApproveResp
  | stateMissing
  | agentFailed (msg : String)
  | resumed (r : RunResp)
deriving DecidableEq

/-- `approveDecision`: remove the id from `pendingDecisions` first, then run
`processStrategyDecision`; on success mark the current node (when any)
complete and re-enter the run loop, otherwise return the failed agent
result. -/
def approveDecision (w : Workflow) (env : AgentEnv) (fuel : Nat) (sys : Sys)
    (decisionId selectedOption : String) : Option (ApproveResp × Sys) :=
  match sys.wfState with
  | none => some (.stateMissing, sys)
  | some st =>
    let sys1 := { sys with wfState := some (removePendingDecision st decisionId) }
    match processStrategyDecision sys1 decisionId selectedOption with
    | (.ok, sys2) =>
      let sys3 :=
        match sys2.wfState with
        | some st2 =>
          match st2.currentNode with
          | some nodeId => { sys2 with wfState := some (markNodeComplete st2 nodeId) }
          | none => sys2
        | none => sys2
      match executeNextNodes w env fuel sys3 with
      | none => none
      | some (r, sys4) => some (.resumed r, sys4)
    | (.errMsg m, sys2) => some (.agentFailed m, sys2)

/-! ## Workflow validation (`validateWorkflow` in `workflow-parser.ts`)

`hasCycle` is a depth-first search over dependency edges with a `visited` set
and a `recursionStack` set, both shared across all top-level calls; a node
found on the recursion stack means a cycle.  On an early `return true` the
stack is *not* cleaned up, exactly as in the source.  The recursion is
embedded with explicit fuel; `none` marks fuel exhaustion, which is proved
unreachable for the fuel `validateWorkflow` passes. -/

/-- `workflow.nodes.find(n => n.id === nodeId)`. -/
def findNode (w : Workflow) (nodeId : String) : Option WorkflowNode :=
  w.nodes.find? (fun n => n.id == nodeId)

/-- The `for (const dep of node.dependencies) if (hasCycle(dep)) return true`
loop, parameterized by the recursive call: thread `(visited, recStack)`
through the dependency list, stopping at the first `true`. -/
def runDeps
    (step : String → List String → List String →
      Option (Bool × List String × List String)) :
    List String → List String → List String →
      Option (Bool × List String × List String)
  | [], v, r => some (false, v, r)
  | d :: ds, v, r =>
    match step d v r with
    | none => none
    | some res => if res.1 then some res else runDeps step ds res.2.1 res.2.2

/-- `hasCycle(nodeId)`: membership of the recursion stack means a cycle; an
already-visited node is skipped; otherwise the node is added to both sets,
its dependencies are searched, and on a `false` exit the node is removed
from the recursion stack again. -/
def dfsNode (w : Workflow) :
    Nat → String → List String → List String →
      Option (Bool × List String × List String)
  | 0, _, _, _ => none
  | fuel + 1, nodeId, visited, recStack =>
    if recStack.contains nodeId then some (true, visited, recStack)
    else if visited.contains nodeId then some (false, visited, recStack)
    else
      let visited1 := nodeId :: visited
      let recStack1 := nodeId :: recStack
      match findNode w nodeId with
      | none => some (false, visited1, recStack1.erase nodeId)
      | some node =>
        match runDeps (dfsNode w fuel) node.dependencies visited1 recStack1 with
        | none => none
        | some res =>
          if res.1 then some res
          else some (false, res.2.1, res.2.2.erase nodeId)

/-- All node ids and dependency ids occurring in the workflow, deduplicated;
an upper bound for the ids the search can ever visit. -/
def univIds (w : Workflow) : List String :=
  (w.nodes.map (fun n => n.id) ++ w.nodes.flatMap (fun n => n.dependencies)).dedup

/-- The error text pushed for a node whose search found a cycle. -/
def cycleMsg (nodeId : String) : String :=
  "Circular dependency detected involving node: " ++ nodeId

/-- The error text pushed for a dependency naming no node. -/
def danglingMsg (nodeId dep : String) : String :=
  "Node " ++ nodeId ++ " depends on non-existent node: " ++ dep

/-- The `for (const node of workflow.nodes) if (hasCycle(node.id)) ...` loop:
top-level search from every node in order, sharing `visited`/`recStack`,
accumulating one cycle error per reporting node. -/
def cycleErrorsGo (w : Workflow) (fuel : Nat) :
    List WorkflowNode → List String → List String → List String →
      Option (List String)
  | [], _, _, acc => some acc
  | n :: ns, v, r, acc =>
    match dfsNode w fuel n.id v r with
    | none => none
    | some (b, v', r') =>
      cycleErrorsGo w fuel ns v' r' (if b then acc ++ [cycleMsg n.id] else acc)

/-- The referential-integrity pass: one error per `(node, dependency)` pair
whose dependency id names no node of the workflow. -/
def danglingErrors (w : Workflow) : List String :=
  w.nodes.flatMap (fun n =>
    (n.dependencies.filter (fun dep => !(w.nodes.any (fun m => m.id == dep)))).map
      (fun dep => danglingMsg n.id dep))

/-- `validateWorkflow`: run the cycle pass over every node, then the
referential-integrity pass; valid iff no error was accumulated. -/
def validateWorkflow (w : Workflow) : Option (Bool × List String) :=
  match cycleErrorsGo w ((univIds w).length + 1) w.nodes [] [] [] with
  | none => none
  | some cyc =>
    let errors := cyc ++ danglingErrors w
    some (errors.isEmpty, errors)

/-! ### Semantic graph predicates (the specification side of C7) -/

/-- Dependency edge: `b` is a dependency of a node with id `a`. -/
def Edge (w : Workflow) (a b : String) : Prop :=
  ∃ n ∈ w.nodes, n.id = a ∧ b ∈ n.dependencies

/-- The workflow contains a dependency cycle. -/
def HasCycle (w : Workflow) : Prop :=
  ∃ a, Relation.TransGen (Edge w) a a

/-- Some dependency id names no node of the workflow. -/
def HasDangling (w : Workflow) : Prop :=
  ∃ n ∈ w.nodes, ∃ d ∈ n.dependencies, ∀ m ∈ w.nodes, m.id ≠ d

/-! ## Helper lemmas on the retry loop -/

/-- The exponential backoff schedule: `k` sleeps `b * 2 ^ j, b * 2 ^ (j+1), …`. -/
def geomSleeps (b : Nat) : Nat → Nat → List Nat
  | _, 0 => []
  | j, k + 1 => b * 2 ^ j :: geomSleeps b (j + 1) k

theorem geomSleeps_eq_map (b : Nat) :
    ∀ k j, geomSleeps b j k = (List.range k).map (fun i => b * 2 ^ (j + i)) := by
  intro k
  induction k with
  | zero => intro j; simp [geomSleeps]
  | succ k ih =>
    intro j
    rw [geomSleeps, ih (j + 1), List.range_succ_eq_map, List.map_cons, List.map_map]
    refine congrArg₂ _ (by simp) ?_
    have h : (fun i => b * 2 ^ (j + 1 + i)) = (fun i => b * 2 ^ (j + i)) ∘ Nat.succ := by
      funext i

      have hji : j + 1 + i = j + (i + 1) := by omega
      simp [Function.comp, hji]
    rw [h]

theorem geomSleeps_sum (b : Nat) :
    ∀ k j, (geomSleeps b j k).sum + b * 2 ^ j = b * 2 ^ (j + k) := by
  intro k
  induction k with
  | zero => intro j; simp [geomSleeps]
  | succ k ih =>
    intro j
    have h := ih (j + 1)
    rw [geomSleeps, List.sum_cons]
    have hp : b * 2 ^ (j + 1) = b * 2 ^ j + b * 2 ^ j := by rw [pow_succ]; ring
    have hj : j + 1 + k = j + (k + 1) := by omega
    rw [hj] at h
    omega

/-- With an always-failing delegate and `fuel + retries = maxRetries + 1`, the
retry loop performs exactly `fuel` invocations, sleeps the geometric backoff
schedule and marks the node failed. -/
theorem execGo_allFail (node : WorkflowNode) (delegate : Delegate) (m b : Nat)
    (hfail : ∀ k, (delegate k).success = false) :
    ∀ f j s, f + j = m + 1 → j ≤ m →
      execGo node delegate m b j f s =
        ⟨.failed, markNodeFailed s node.id, f, geomSleeps b j (m - j)⟩ := by
  intro f
  induction f with
  | zero => intro j s hf hj; exfalso; omega
  | succ f ih =>
    intro j s hf hj
    rw [execGo]
    simp only [hfail j, Bool.false_eq_true, if_false]
    by_cases hjm : j + 1 ≤ m
    · rw [if_pos hjm, ih (j + 1) s (by omega) hjm]
      have hmj : m - j = (m - (j + 1)) + 1 := by omega
      rw [hmj, geomSleeps]
      simp [Nat.add_sub_cancel]
    · rw [if_neg hjm]
      have hf0 : f = 0 := by omega
      have hmj : m - j = 0 := by omega
      rw [hf0, hmj, geomSleeps]

/-- Every sleep the retry loop performs is `b * 2 ^ i` for some `i`. -/
theorem execGo_sleeps_shape (node : WorkflowNode) (delegate : Delegate) (m b : Nat) :
    ∀ f j s d, d ∈ (execGo node delegate m b j f s).sleeps → ∃ i, d = b * 2 ^ i := by
  intro f
  induction f with
  | zero => intro j s d hd; simp [execGo] at hd
  | succ f ih =>
    intro j s d hd
    rw [execGo] at hd
    by_cases hs : (delegate j).success
    · simp only [hs, if_true] at hd
      split at hd
      · split at hd <;> simp at hd
      · simp at hd
    · simp only [hs, Bool.false_eq_true, if_false] at hd
      by_cases hjm : j + 1 ≤ m
      · rw [if_pos hjm] at hd
        simp only [List.mem_cons] at hd
        rcases hd with rfl | hd
        · exact ⟨j + 1 - 1, rfl⟩
        · exact ih (j + 1) s d hd
      · rw [if_neg hjm] at hd
        simp at hd

/-- When the effective retry budget is zero, one iteration of the loop settles
the node: exactly one invocation, no sleep. -/
theorem executeNode_no_retry (node : WorkflowNode) (h0 : effMaxRetries node = 0)
    (delegate : Delegate) (s : WorkflowState) :
    (executeNode node delegate s).invocations = 1 ∧
      (executeNode node delegate s).sleeps = [] := by
  unfold executeNode
  rw [h0, execGo]
  by_cases hs : (delegate 0).success
  · simp only [hs, if_true]
    split
    · split <;> exact ⟨rfl, rfl⟩
    · exact ⟨rfl, rfl⟩
  · simp [hs]

/-! ## C1 -/

/-- Fixture for C1: an approval-required node whose delegate succeeds but
returns a payload with no `decision_id` key. -/
def c1node : WorkflowNode :=
  { id := "strategy_review"
    name := "Strategy Review"
    agentId := "strategy_agent"
    dependencies := []
    requiresApproval := true
    retryPolicy := none
    runQA := false
    runCodeReview := false }

/-- Fixture for C1: delegate succeeding without a decision id. -/
def c1delegate : Delegate := fun _ => ⟨true, some ⟨none⟩⟩

/-- C1 counterexample: an approval-required node whose delegate succeeds with
no decision id is marked *completed* (outcome `completed`, id appended to
`completedNodes`, `failedNodes` untouched), refuting the claimed permanent
node failure. -/
theorem c1_counterexample :
    (executeNode c1node c1delegate freshWorkflowState).outcome = NodeOutcome.completed ∧
    (executeNode c1node c1delegate freshWorkflowState).outcome ≠ NodeOutcome.failed ∧
    "strategy_review" ∈ (executeNode c1node c1delegate freshWorkflowState).state.completedNodes ∧
    (executeNode c1node c1delegate freshWorkflowState).state.failedNodes = [] := by
  decide

/-- C1 (amended): for every node with `requiresApproval = true` whose delegate
invocation succeeds but returns an output containing no decision id, the Node
Executor treats the node as a successfully *completed* node on the first
attempt: outcome `completed`, the node id is appended to `completedNodes`,
and `failedNodes` is left unchanged (the node is never treated as failed). -/
theorem c1_approval_without_decision_completes
    (node : WorkflowNode) (delegate : Delegate) (s : WorkflowState)
    (happ : node.requiresApproval = true)
    (hsucc : (delegate 0).success = true)
    (hnid : (delegate 0).data = none ∨
      ∃ d, (delegate 0).data = some d ∧ d.decisionId = none) :
    executeNode node delegate s =
      ⟨.completed, markNodeComplete (setCurrentNode s node.id) node.id, 1, []⟩ ∧
    node.id ∈ (executeNode node delegate s).state.completedNodes ∧
    (executeNode node delegate s).state.failedNodes = s.failedNodes := by
  have hmain : executeNode node delegate s =
      ⟨.completed, markNodeComplete (setCurrentNode s node.id) node.id, 1, []⟩ := by
    unfold executeNode
    rw [execGo]
    rcases hnid with hnone | ⟨d, hd, hdnone⟩
    · simp [hsucc, happ, hnone]
    · simp [hsucc, happ, hd, hdnone]
  refine ⟨hmain, ?_, ?_⟩
  · rw [hmain]; simp [markNodeComplete, setCurrentNode]
  · rw [hmain]; simp [markNodeComplete, setCurrentNode]

/-- C1 witness: the amended theorem applied at the C1 fixture. -/
theorem c1_witness :
    c1node.requiresApproval = true ∧ (c1delegate 0).success = true ∧
    (executeNode c1node c1delegate freshWorkflowState).state.failedNodes =
      freshWorkflowState.failedNodes :=
  ⟨rfl, rfl,
    (c1_approval_without_decision_completes c1node c1delegate freshWorkflowState rfl rfl
      (Or.inr ⟨⟨none⟩, rfl, rfl⟩)).2.2⟩

/-! ## C6 -/

/-- C6: retry law.  For `retryPolicy = {maxRetries := n, backoffMs := b}` and
an always-failing delegate, `executeNode` invokes the delegate exactly `n + 1`
times, sleeps `effBackoffMs * 2 ^ (k-1)` before retry attempt `k` (the full
geometric schedule), accumulates total sleep at least `b * (2^n - 1)
= b * (2^0 + … + 2^(n-1))`, appends the node to `failedNodes` and leaves the
run's status `failed`. -/
theorem c6_retry_law (node : WorkflowNode) (n b : Nat)
    (hp : node.retryPolicy = some ⟨n, b⟩)
    (delegate : Delegate) (s : WorkflowState)
    (hfail : ∀ k, (delegate k).success = false) :
    (executeNode node delegate s).invocations = n + 1 ∧
    (executeNode node delegate s).sleeps =
      (List.range n).map (fun k => effBackoffMs node * 2 ^ k) ∧
    b * (2 ^ n - 1) ≤ (executeNode node delegate s).sleeps.sum ∧
    (executeNode node delegate s).outcome = .failed ∧
    (executeNode node delegate s).state.status = .failed ∧
    node.id ∈ (executeNode node delegate s).state.failedNodes := by
  have hm : effMaxRetries node = n := by simp [effMaxRetries, hp]
  have hrun : executeNode node delegate s =
      ⟨.failed, markNodeFailed (setCurrentNode s node.id) node.id, n + 1,
        geomSleeps (effBackoffMs node) 0 n⟩ := by
    unfold executeNode
    rw [hm, execGo_allFail node delegate n (effBackoffMs node) hfail (n + 1) 0
      (setCurrentNode s node.id) (by omega) (by omega)]
    simp
  have hble : b ≤ effBackoffMs node := by
    simp only [effBackoffMs, hp]
    by_cases hb : b = 0 <;> simp [hb]
  have hsum : (geomSleeps (effBackoffMs node) 0 n).sum =
      effBackoffMs node * (2 ^ n - 1) := by
    have h := geomSleeps_sum (effBackoffMs node) n 0
    have hpow : 1 ≤ 2 ^ n := Nat.one_le_two_pow
    have hfac : effBackoffMs node * (2 ^ n - 1) + effBackoffMs node =
        effBackoffMs node * 2 ^ n := by
      rw [← Nat.mul_succ]
      congr 1
      omega
    simp only [pow_zero, Nat.mul_one, Nat.zero_add] at h
    omega
  refine ⟨by rw [hrun], ?_, ?_, by rw [hrun], ?_, ?_⟩
  · rw [hrun]
    simp only [geomSleeps_eq_map]
    simp
  · rw [hrun]
    simp only [hsum]
    exact Nat.mul_le_mul_right _ hble
  · rw [hrun]; rfl
  · rw [hrun]
    simp [markNodeFailed]

/-- Fixture for C6: a node with `maxRetries = 2`, `backoffMs = 5`. -/
def c6node : WorkflowNode :=
  { id := "generate_strategy"
    name := "Generate Strategy"
    agentId := "strategy_agent"
    dependencies := []
    requiresApproval := false
    retryPolicy := some ⟨2, 5⟩
    runQA := false
    runCodeReview := false }

/-- Fixture for C6: an always-failing delegate. -/
def c6delegate : Delegate := fun _ => ⟨false, none⟩

/-- C6 witness: the retry law applied at `maxRetries = 2`, `backoffMs = 5`. -/
theorem c6_witness :
    c6node.retryPolicy = some ⟨2, 5⟩ ∧ (∀ k, (c6delegate k).success = false) ∧
    (executeNode c6node c6delegate freshWorkflowState).invocations = 2 + 1 :=
  ⟨rfl, fun _ => rfl,
    (c6_retry_law c6node 2 5 rfl c6delegate freshWorkflowState (fun _ => rfl)).1⟩

/-! ## C10 -/

/-- C10: default substitution in the retry policy.  An absent policy or a
zero (falsy) `backoffMs` makes the executor use a base backoff of 1000 ms, so
every sleep between retries is at least 1000 ms (never zero); an absent
policy or a zero `maxRetries` yields exactly one delegate invocation and no
retry sleep, for every delegate. -/
theorem c10_retry_defaults (node : WorkflowNode) :
    ((node.retryPolicy = none ∨
        ∃ p, node.retryPolicy = some p ∧ p.backoffMs = 0) →
      effBackoffMs node = 1000 ∧
      ∀ (delegate : Delegate) (s : WorkflowState) (d : Nat),
        d ∈ (executeNode node delegate s).sleeps → 1000 ≤ d) ∧
    ((node.retryPolicy = none ∨
        ∃ p, node.retryPolicy = some p ∧ p.maxRetries = 0) →
      ∀ (delegate : Delegate) (s : WorkflowState),
        (executeNode node delegate s).invocations = 1 ∧
        (executeNode node delegate s).sleeps = []) := by
  constructor
  · intro hb
    have h1000 : effBackoffMs node = 1000 := by
      rcases hb with hnone | ⟨p, hp, hb0⟩
      · simp [effBackoffMs, hnone]
      · simp [effBackoffMs, hp, hb0]
    refine ⟨h1000, fun delegate s d hd => ?_⟩
    unfold executeNode at hd
    obtain ⟨i, rfl⟩ := execGo_sleeps_shape node delegate _ _ _ _ _ _ hd
    rw [h1000]
    calc 1000 = 1000 * 1 := by omega
    _ ≤ 1000 * 2 ^ i := Nat.mul_le_mul_left _ Nat.one_le_two_pow
  · intro hm delegate s
    have h0 : effMaxRetries node = 0 := by
      rcases hm with hnone | ⟨p, hp, hm0⟩
      · simp [effMaxRetries, hnone]
      · simp [effMaxRetries, hp, hm0]
    exact executeNode_no_retry node h0 delegate s

/-- Fixture for C10: a node with no retry policy. -/
def c10node : WorkflowNode :=
  { id := "ingest"
    name := "Ingest"
    agentId := "knowledge_agent"
    dependencies := []
    requiresApproval := false
    retryPolicy := none
    runQA := false
    runCodeReview := false }

/-- C10 witness: the defaults theorem applied to a node without a policy. -/
theorem c10_witness :
    c10node.retryPolicy = none ∧ effBackoffMs c10node = 1000 ∧
    (executeNode c10node c6delegate freshWorkflowState).invocations = 1 :=
  ⟨rfl, ((c10_retry_defaults c10node).1 (Or.inl rfl)).1,
    ((c10_retry_defaults c10node).2 (Or.inl rfl) c6delegate freshWorkflowState).1⟩

/-! ## C4 -/

/-- The claimed state invariant: `status = paused` iff `pendingDecisions` is
non-empty. -/
def StatusIff (s : WorkflowState) : Prop :=
  s.status = .paused ↔ s.pendingDecisions ≠ []

/-- C4 counterexample: `cancelWorkflow` applied to a paused state with one
pending decision produces a state whose `pendingDecisions` is non-empty while
`status ≠ paused`, so the claimed iff-invariant does not survive
`cancelWorkflow` (one of the operations the claim quantifies over). -/
theorem c4_counterexample :
    (addPendingDecision freshWorkflowState "d1").status = WStatus.paused ∧
    (addPendingDecision freshWorkflowState "d1").pendingDecisions ≠ [] ∧
    (cancelWorkflow (addPendingDecision freshWorkflowState "d1")).pendingDecisions ≠ [] ∧
    (cancelWorkflow (addPendingDecision freshWorkflowState "d1")).status ≠ WStatus.paused := by
  decide

/-- C4 (amended): after `addPendingDecision` and `removePendingDecision` the
iff-invariant `status = paused ↔ pendingDecisions ≠ []` holds outright, and
`markNodeComplete`/`setCurrentNode` preserve it; but `markNodeFailed`,
`completeWorkflow` and `cancelWorkflow` set a non-paused status while leaving
`pendingDecisions` untouched, so after them only the direction
`paused → non-empty` holds (vacuously) and the converse can fail. -/
theorem c4_paused_invariant :
    StatusIff freshWorkflowState ∧
    (∀ s d, StatusIff (addPendingDecision s d)) ∧
    (∀ s d, StatusIff (removePendingDecision s d)) ∧
    (∀ s n, StatusIff s → StatusIff (markNodeComplete s n)) ∧
    (∀ s n, StatusIff s → StatusIff (setCurrentNode s n)) ∧
    (∀ s n, (markNodeFailed s n).status ≠ .paused ∧
      (markNodeFailed s n).pendingDecisions = s.pendingDecisions) ∧
    (∀ s, (completeWorkflow s).status ≠ .paused ∧
      (completeWorkflow s).pendingDecisions = s.pendingDecisions) ∧
    (∀ s, (cancelWorkflow s).status ≠ .paused ∧
      (cancelWorkflow s).pendingDecisions = s.pendingDecisions) := by
  refine ⟨?_, ?_, ?_, ?_, ?_, ?_, ?_, ?_⟩
  · simp [StatusIff, freshWorkflowState]
  · intro s d
    simp [StatusIff, addPendingDecision]
  · intro s d
    simp only [StatusIff, removePendingDecision]
    by_cases h : (s.pendingDecisions.filter (fun x => x ≠ d)).length > 0
    · simp only [if_pos h]
      constructor
      · intro _ hnil; rw [hnil] at h; simp at h
      · intro _; trivial
    · simp only [if_neg h]
      have hnil : s.pendingDecisions.filter (fun x => x ≠ d) = [] :=
        List.length_eq_zero.mp (by omega)
      constructor
      · intro habs; exact absurd habs (by simp)
      · intro hne; exact absurd hnil hne
  · intro s n h
    simpa [StatusIff, markNodeComplete] using h
  · intro s n h
    simpa [StatusIff, setCurrentNode] using h
  · intro s n
    exact ⟨by simp [markNodeFailed], rfl⟩
  · intro s
    exact ⟨by simp [completeWorkflow], rfl⟩
  · intro s
    exact ⟨by simp [cancelWorkflow], rfl⟩

/-- C4 witness: the amended invariant theorem applied at a concrete state. -/
theorem c4_witness :
    StatusIff (addPendingDecision freshWorkflowState "d1") ∧
    StatusIff (markNodeComplete (addPendingDecision freshWorkflowState "d1") "n1") :=
  ⟨c4_paused_invariant.2.1 freshWorkflowState "d1",
    c4_paused_invariant.2.2.2.1 (addPendingDecision freshWorkflowState "d1") "n1"
      (c4_paused_invariant.2.1 freshWorkflowState "d1")⟩

/-! ## C5 -/

/-- C5 counterexample: invoking stop (`cancelWorkflow`) on an already-terminal
*completed* run changes its status to `failed`, so a terminal status is not
left unchanged by stop. -/
theorem c5_counterexample :
    (completeWorkflow freshWorkflowState).status = WStatus.completed ∧
    (cancelWorkflow (completeWorkflow freshWorkflowState)).status ≠
      (completeWorkflow freshWorkflowState).status := by
  decide

/-- C5 (amended): stop (`cancelWorkflow`) always forces `status = failed` and
is idempotent as an operation, so a `failed` terminal status is preserved by
stop; but stop on a `completed` run overwrites the terminal status with
`failed`, so `completed` is not stable under stop. -/
theorem c5_stop_forces_failed (s : WorkflowState) :
    (cancelWorkflow s).status = .failed ∧
    cancelWorkflow (cancelWorkflow s) = cancelWorkflow s ∧
    (s.status = .failed → (cancelWorkflow s).status = s.status) := by
  refine ⟨rfl, rfl, fun h => ?_⟩
  rw [h]; rfl

/-- C5 witness: the amended theorem applied at a failed state. -/
theorem c5_witness :
    (markNodeFailed freshWorkflowState "A").status = WStatus.failed ∧
    (cancelWorkflow (markNodeFailed freshWorkflowState "A")).status =
      (markNodeFailed freshWorkflowState "A").status :=
  ⟨rfl, (c5_stop_forces_failed (markNodeFailed freshWorkflowState "A")).2.2 rfl⟩

/-! ## C9 -/

/-- Fixture for C9: the linear graph `A → B → C`. -/
def c9nodeA : WorkflowNode :=
  { id := "A", name := "A", agentId := "agentA", dependencies := []
    requiresApproval := false, retryPolicy := none
    runQA := false, runCodeReview := false }

/-- Fixture for C9: node B depending on A. -/
def c9nodeB : WorkflowNode :=
  { id := "B", name := "B", agentId := "agentB", dependencies := ["A"]
    requiresApproval := false, retryPolicy := none
    runQA := false, runCodeReview := false }

/-- Fixture for C9: node C depending on B. -/
def c9nodeC : WorkflowNode :=
  { id := "C", name := "C", agentId := "agentC", dependencies := ["B"]
    requiresApproval := false, retryPolicy := none
    runQA := false, runCodeReview := false }

/-- Fixture for C9: the workflow `A → B → C`. -/
def c9workflow : Workflow := ⟨"linear", [c9nodeA, c9nodeB, c9nodeC]⟩

/-- Fixture for C9: A's delegate always fails, every other delegate
succeeds. -/
def c9env : AgentEnv := fun agentId =>
  if agentId = "agentA" then fun _ => ⟨false, none⟩ else fun _ => ⟨true, none⟩

/-- C9: a node with a dependency in `failedNodes` is never eligible, because
dependencies are satisfied only by membership in `completedNodes` (given the
invariant that failed nodes are not also completed); and in the concrete graph
`A → B → C` with A failing permanently, the run terminates with
`status = failed`, `failedNodes = {A}` and `completedNodes = {}` — B and C
are never executed. -/
theorem c9_failed_dependency_blocks :
    (∀ (w : Workflow) (completed failed : List String) (n : WorkflowNode),
      (∀ x ∈ failed, x ∉ completed) →
      n ∈ getNextNodes w completed failed →
      ∀ d ∈ n.dependencies, d ∈ completed ∧ d ∉ failed) ∧
    startWorkflow c9workflow c9env 5 ⟨none, [], [], 0⟩ =
      some (.terminalSnap .failed [] ["A"],
        ⟨some ⟨none, [], ["A"], [], .failed⟩, [], [], 1⟩) := by
  constructor
  · intro w completed failed n hdisj hn d hd
    rw [getNextNodes, List.mem_filter] at hn
    obtain ⟨-, hpred⟩ := hn
    have hsat : areDependenciesSatisfied n completed = true := by
      by_cases hc : (completed.contains n.id || failed.contains n.id) = true
      · rw [if_pos (by exact hc)] at hpred; exact absurd hpred (by simp)
      · rwa [if_neg hc] at hpred
    rw [areDependenciesSatisfied, List.all_eq_true] at hsat
    have hmem : d ∈ completed := by
      have := hsat d hd
      simpa using this
    exact ⟨hmem, fun hdf => hdisj d hdf hmem⟩
  · decide

/-- C9 witness: the eligibility part applied to the concrete graph, where B
is eligible once A completed and its dependency A is indeed completed. -/
theorem c9_witness :
    (∀ x ∈ ["Z"], x ∉ ["A"]) ∧ c9nodeB ∈ getNextNodes c9workflow ["A"] ["Z"] ∧
    "A" ∈ (["A"] : List String) ∧ "A" ∉ (["Z"] : List String) :=
  ⟨by decide, by decide,
    (c9_failed_dependency_blocks.1 c9workflow ["A"] ["Z"] c9nodeB (by decide)
      (by decide) "A" (by decide)).1,
    (c9_failed_dependency_blocks.1 c9workflow ["A"] ["Z"] c9nodeB (by decide)
      (by decide) "A" (by decide)).2⟩

/-! ## C8 -/

/-- The retry loop only ever appends to `completedNodes`. -/
theorem execGo_completed_mono (node : WorkflowNode) (delegate : Delegate) (m b : Nat) :
    ∀ f j s, ∃ t,
      (execGo node delegate m b j f s).state.completedNodes = s.completedNodes ++ t := by
  intro f
  induction f with
  | zero => intro j s; exact ⟨[], by simp [execGo, markNodeFailed]⟩
  | succ f ih =>
    intro j s
    rw [execGo]
    by_cases hs : (delegate j).success
    · simp only [hs, if_true]
      split
      · split
        · exact ⟨[], by simp [addPendingDecision]⟩
        · exact ⟨[node.id], by simp [markNodeComplete]⟩
      · exact ⟨[node.id], by simp [markNodeComplete]⟩
    · simp only [hs, Bool.false_eq_true, if_false]
      by_cases hjm : j + 1 ≤ m
      · rw [if_pos hjm]
        exact ih (j + 1) s
      · rw [if_neg hjm]
        exact ⟨[], by simp [markNodeFailed]⟩

/-- `executeNode` only ever appends to `completedNodes`. -/
theorem executeNode_completed_mono (node : WorkflowNode) (delegate : Delegate)
    (s : WorkflowState) :
    ∃ t, (executeNode node delegate s).state.completedNodes = s.completedNodes ++ t := by
  unfold executeNode
  obtain ⟨t, ht⟩ := execGo_completed_mono node delegate (effMaxRetries node)
    (effBackoffMs node) (effMaxRetries node + 1) 0 (setCurrentNode s node.id)
  exact ⟨t, by rw [ht]; rfl⟩

/-- The sequential batch only ever appends to `completedNodes`. -/
theorem execBatch_completed_mono (env : AgentEnv) :
    ∀ (l : List WorkflowNode) (s : WorkflowState),
      ∃ t, (execBatch env l s).1.completedNodes = s.completedNodes ++ t := by
  intro l
  induction l with
  | nil => intro s; exact ⟨[], by simp [execBatch]⟩
  | cons n ns ih =>
    intro s
    rw [execBatch]
    obtain ⟨t1, ht1⟩ := executeNode_completed_mono n (env n.agentId) s
    split
    · exact ⟨t1, ht1⟩
    · obtain ⟨t2, ht2⟩ := ih (executeNode n (env n.agentId) s).state
      exact ⟨t1 ++ t2, by rw [ht2, ht1, List.append_assoc]⟩

/-- The run loop never calls `createWorkflowState`, never touches the
decision table or the effects log, and only appends to `completedNodes`. -/
theorem executeNextNodes_mono (w : Workflow) (env : AgentEnv) :
    ∀ (fuel : Nat) (sys : Sys) (r : RunResp) (sys' : Sys),
      executeNextNodes w env fuel sys = some (r, sys') →
      sys'.created = sys.created ∧ sys'.decisions = sys.decisions ∧
      sys'.effects = sys.effects ∧
      ∀ st, sys.wfState = some st → ∃ st' t, sys'.wfState = some st' ∧
        st'.completedNodes = st.completedNodes ++ t := by
  intro fuel
  induction fuel with
  | zero => intro sys r sys' h; exact absurd h (by simp [executeNextNodes])
  | succ fuel ih =>
    intro sys r sys' h
    rw [executeNextNodes] at h
    cases hst : sys.wfState with
    | none =>
      simp only [hst] at h
      simp only [Option.some.injEq, Prod.mk.injEq] at h
      obtain ⟨-, rfl⟩ := h
      exact ⟨rfl, rfl, rfl, fun st hcontra => by simp at hcontra⟩
    | some st =>
      simp only [hst] at h
      have hsub : ∀ st0 : WorkflowState,
          (some st : Option WorkflowState) = some st0 → st0 = st := by
        intro st0 hst0
        exact (Option.some_inj.mp hst0).symm
      by_cases hp : st.status = WStatus.paused
      · rw [if_pos hp] at h
        simp only [Option.some.injEq, Prod.mk.injEq] at h
        obtain ⟨-, rfl⟩ := h
        refine ⟨rfl, rfl, rfl, fun st0 hst0 => ?_⟩
        obtain rfl : st0 = st := hsub st0 hst0
        exact ⟨st0, [], hst, by simp⟩
      · rw [if_neg hp] at h
        by_cases ht : st.status = WStatus.completed ∨ st.status = WStatus.failed
        · rw [if_pos ht] at h
          simp only [Option.some.injEq, Prod.mk.injEq] at h
          obtain ⟨-, rfl⟩ := h
          refine ⟨rfl, rfl, rfl, fun st0 hst0 => ?_⟩
          obtain rfl : st0 = st := hsub st0 hst0
          exact ⟨st0, [], hst, by simp⟩
        · rw [if_neg ht] at h
          cases hnext : getNextNodes w st.completedNodes st.failedNodes with
          | nil =>
            simp only [hnext] at h
            simp only [Option.some.injEq, Prod.mk.injEq] at h
            obtain ⟨-, rfl⟩ := h
            refine ⟨rfl, rfl, rfl, fun st0 hst0 => ?_⟩
            obtain rfl : st0 = st := hsub st0 hst0
            exact ⟨completeWorkflow st0, [], rfl, by simp [completeWorkflow]⟩
          | cons n ns =>
            simp only [hnext] at h
            obtain ⟨tb, htb⟩ := execBatch_completed_mono env (n :: ns) st
            by_cases hap : (execBatch env (n :: ns) st).2
            · rw [if_pos hap] at h
              simp only [Option.some.injEq, Prod.mk.injEq] at h
              obtain ⟨-, rfl⟩ := h
              refine ⟨rfl, rfl, rfl, fun st0 hst0 => ?_⟩
              obtain rfl : st0 = st := hsub st0 hst0
              exact ⟨(execBatch env (n :: ns) st0).1, tb, rfl, htb⟩
            · rw [if_neg hap] at h
              obtain ⟨hc, hd, he, hw⟩ := ih _ _ _ h
              refine ⟨hc, hd, he, fun st0 hst0 => ?_⟩
              obtain rfl : st0 = st := hsub st0 hst0
              obtain ⟨st', t2, hst', hcomp⟩ := hw (execBatch env (n :: ns) st0).1 rfl
              exact ⟨st', tb ++ t2, hst', by
                rw [hcomp, htb, List.append_assoc]⟩

/-- C8: `start` on a project whose state is `running` or `paused` is a pure
resume: it takes exactly the run-loop path (`createWorkflowState` is not
invoked, so the creation counter is unchanged and no second state record
appears) and the stored `completedNodes` is only ever extended, never
reset. -/
theorem c8_start_resumes (w : Workflow) (env : AgentEnv) (fuel : Nat) (sys : Sys)
    (st : WorkflowState) (hst : sys.wfState = some st)
    (hrun : st.status = .running ∨ st.status = .paused) :
    startWorkflow w env fuel sys = executeNextNodes w env fuel sys ∧
    ∀ r sys', executeNextNodes w env fuel sys = some (r, sys') →
      sys'.created = sys.created ∧
      ∃ st' t, sys'.wfState = some st' ∧
        st'.completedNodes = st.completedNodes ++ t := by
  constructor
  · simp only [startWorkflow, hst]
    rw [if_pos hrun]
  · intro r sys' h
    obtain ⟨hc, -, -, hw⟩ := executeNextNodes_mono w env fuel sys r sys' h
    exact ⟨hc, hw st hst⟩

/-- Fixture for C8: a running state with one completed node. -/
def c8sys : Sys :=
  ⟨some ⟨none, ["A"], [], [], .running⟩, [], [], 1⟩

/-- C8 witness: the resume theorem applied to a concrete running project. -/
theorem c8_witness :
    c8sys.wfState = some ⟨none, ["A"], [], [], .running⟩ ∧
    startWorkflow c9workflow c9env 5 c8sys = executeNextNodes c9workflow c9env 5 c8sys :=
  ⟨rfl, (c8_start_resumes c9workflow c9env 5 c8sys ⟨none, ["A"], [], [], .running⟩
    rfl (Or.inl rfl)).1⟩

/-! ## C2 and C3: the approval boundary -/

/-- Shared approval fixture: an approval-required strategy node. -/
def apNode : WorkflowNode :=
  { id := "strategy", name := "Strategy", agentId := "strategy_agent"
    dependencies := [], requiresApproval := true, retryPolicy := none
    runQA := false, runCodeReview := false }

/-- Shared approval fixture: a one-node workflow around `apNode`. -/
def apWorkflow : Workflow := ⟨"approval", [apNode]⟩

/-- Shared approval fixture: delegates succeed with no payload. -/
def apEnv : AgentEnv := fun _ _ => ⟨true, none⟩

/-- Shared approval fixture: the pending decision record `d1`. -/
def apDecision : Decision := ⟨"d1", ["opt1", "opt2"], "pending", none⟩

/-- Shared approval fixture: a run paused on decision `d1` while `apNode` is
the current node. -/
def apSysPaused : Sys :=
  ⟨some ⟨some "strategy", [], [], ["d1"], .paused⟩, [apDecision], [], 1⟩

/-- C2 counterexample: after a first successful approval of `d1` (whose
resulting system has `d1` removed from `pendingDecisions` and one completion
side effect), a second `approveDecision` with the same id does not fail at
all — it resumes the run and the completion side effects run a second time
(the effects log ends with two identical entries). -/
theorem c2_counterexample :
    (approveDecision apWorkflow apEnv 4 apSysPaused "d1" "opt2").map
        (fun p => p.2.wfState.map (fun st => st.pendingDecisions)) =
      some (some []) ∧
    ((approveDecision apWorkflow apEnv 4 apSysPaused "d1" "opt2").bind
        (fun p => approveDecision apWorkflow apEnv 4 p.2 "d1" "opt2")) =
      some (.resumed (.completedSnap ["strategy"]),
        ⟨some ⟨none, ["strategy"], [], [], .completed⟩,
          [⟨"d1", ["opt1", "opt2"], "approved", some "opt2"⟩],
          ["strategy_approved:d1", "strategy_approved:d1"], 1⟩) := by
  constructor
  · decide
  · decide

/-- C2 (amended): re-invoking `approveDecision` with a decision id that is no
longer in `pendingDecisions` does not fail (no resolved-decision check
exists): whenever the decision record is still present and the selected
option is valid, the call re-runs the decision's completion side effects
(re-approving the record and appending a fresh completion effect) and
re-enters the run loop; the originating node is not re-marked completed only
because `currentNode` is empty, and `completedNodes` is untouched at the
approval boundary. -/
theorem c2_reapprove_reruns (w : Workflow) (env : AgentEnv) (fuel : Nat)
    (sys : Sys) (st : WorkflowState) (d opt : String) (dec : Decision)
    (hst : sys.wfState = some st)
    (hpend : d ∉ st.pendingDecisions)
    (hcur : st.currentNode = none)
    (hfind : sys.decisions.find? (fun x => x.id == d) = some dec)
    (hopt : dec.options.contains opt = true) :
    approveDecision w env fuel sys d opt =
      (executeNextNodes w env fuel
        { sys with
            wfState := some (removePendingDecision st d)
            decisions := sys.decisions.map (fun x =>
              if x.id == d then
                { x with status := "approved", selectedOption := some opt }
              else x)
            effects := sys.effects ++ ["strategy_approved:" ++ d] }).map
        (fun p => (ApproveResp.resumed p.1, p.2)) ∧
    (removePendingDecision st d).pendingDecisions = st.pendingDecisions ∧
    (removePendingDecision st d).completedNodes = st.completedNodes := by
  have hfilter : st.pendingDecisions.filter (fun x => x ≠ d) = st.pendingDecisions :=
    List.filter_eq_self.mpr (fun a ha => by
      simp only [ne_eq, decide_eq_true_eq]
      intro had
      exact hpend (had ▸ ha))
  refine ⟨?_, by simp only [removePendingDecision]; exact hfilter, rfl⟩
  rw [approveDecision]
  simp only [hst]
  rw [processStrategyDecision]
  simp only [hfind, hopt, if_true]
  have hcur' : (removePendingDecision st d).currentNode = none := hcur
  simp only [hcur']
  cases hrun : executeNextNodes w env fuel
      { sys with
          wfState := some (removePendingDecision st d)
          decisions := sys.decisions.map (fun x =>
            if x.id == d then
              { x with status := "approved", selectedOption := some opt }
            else x)
          effects := sys.effects ++ ["strategy_approved:" ++ d] } with
  | none => simp
  | some p => simp

/-- C2 witness: the amended theorem applied to the post-first-approval
system of the counterexample scenario. -/
theorem c2_witness :
    "d1" ∉ (⟨none, ["strategy"], [], [], WStatus.completed⟩ :
      WorkflowState).pendingDecisions ∧
    (removePendingDecision ⟨none, ["strategy"], [], [], WStatus.completed⟩
      "d1").completedNodes =
      (⟨none, ["strategy"], [], [], WStatus.completed⟩ :
        WorkflowState).completedNodes :=
  ⟨by decide,
    (c2_reapprove_reruns apWorkflow apEnv 4
      ⟨some ⟨none, ["strategy"], [], [], .completed⟩,
        [⟨"d1", ["opt1", "opt2"], "approved", some "opt2"⟩],
        ["strategy_approved:d1"], 1⟩
      ⟨none, ["strategy"], [], [], .completed⟩ "d1" "opt2"
      ⟨"d1", ["opt1", "opt2"], "approved", some "opt2"⟩
      rfl (by decide) rfl (by decide) (by decide)).2.2⟩

/-- C3 counterexample: approving `d1` with an option name that is not one of
its options fails (`Invalid option selected`), but the run's ExecutionState
is *changed* by the failed call: `pendingDecisions` went from `["d1"]` to
`[]` and `status` from `paused` to `running`. -/
theorem c3_counterexample :
    apSysPaused.wfState.map (fun st => st.pendingDecisions) = some ["d1"] ∧
    apSysPaused.wfState.map (fun st => st.status) = some WStatus.paused ∧
    approveDecision apWorkflow apEnv 4 apSysPaused "d1" "nope" =
      some (.agentFailed "Invalid option selected: nope",
        ⟨some ⟨some "strategy", [], [], [], .running⟩, [apDecision], [], 1⟩) := by
  refine ⟨rfl, rfl, ?_⟩
  decide

/-- C3 (amended): when `selectedOptionId` names none of the decision's
options, `approveDecision` fails with the invalid-option error and performs
no decision update, no completion side effect and no node completion — but
the ExecutionState is *not* left unchanged: the decision id has already been
removed from `pendingDecisions` and the status recomputed (`paused` when
other decisions remain, else `running`) before validation runs. -/
theorem c3_invalid_option_mutates_state (w : Workflow) (env : AgentEnv)
    (fuel : Nat) (sys : Sys) (st : WorkflowState) (d opt : String)
    (dec : Decision)
    (hst : sys.wfState = some st)
    (hfind : sys.decisions.find? (fun x => x.id == d) = some dec)
    (hopt : dec.options.contains opt = false) :
    approveDecision w env fuel sys d opt =
      some (.agentFailed ("Invalid option selected: " ++ opt),
        { sys with wfState := some (removePendingDecision st d) }) := by
  rw [approveDecision]
  simp only [hst]
  rw [processStrategyDecision]
  simp only [hfind, hopt]
  simp

/-- C3 witness: the amended theorem applied at the paused fixture with an
invalid option. -/
theorem c3_witness :
    apSysPaused.wfState = some ⟨some "strategy", [], [], ["d1"], .paused⟩ ∧
    approveDecision apWorkflow apEnv 4 apSysPaused "d1" "nope" =
      some (.agentFailed ("Invalid option selected: " ++ "nope"),
        { apSysPaused with
            wfState := some (removePendingDecision
              ⟨some "strategy", [], [], ["d1"], .paused⟩ "d1") }) :=
  ⟨rfl,
    c3_invalid_option_mutates_state apWorkflow apEnv 4 apSysPaused
      ⟨some "strategy", [], [], ["d1"], .paused⟩ "d1" "nope" apDecision rfl
      (by decide) (by decide)⟩

/-! ## C7: correctness of `validateWorkflow`

The development below proves that the cycle pass reports at least one error
iff the dependency relation has a cycle (for workflows with unique node ids,
per the data model), and that the referential pass reports exactly the
dangling dependencies.  `dfsNode` is analysed through four lemma groups:
restoration/monotonicity, soundness of a `true` answer, fuel sufficiency,
and an invariant on finished nodes giving completeness. -/

theorem findNode_some {w : Workflow} {i : String} {n : WorkflowNode}
    (h : findNode w i = some n) : n ∈ w.nodes ∧ n.id = i := by
  refine ⟨List.mem_of_find?_eq_some h, ?_⟩
  have hp := List.find?_some h
  simpa using hp

theorem findNode_none {w : Workflow} {i : String}
    (h : findNode w i = none) : ∀ n ∈ w.nodes, n.id ≠ i := by
  intro n hn
  have hp := List.find?_eq_none.mp h n hn
  simpa using hp

theorem edge_of_findNode {w : Workflow} {a b : String} {n : WorkflowNode}
    (h : findNode w a = some n) (hb : b ∈ n.dependencies) : Edge w a b :=
  ⟨n, (findNode_some h).1, (findNode_some h).2, hb⟩

theorem not_edge_of_findNode_none {w : Workflow} {a b : String}
    (h : findNode w a = none) : ¬ Edge w a b := by
  rintro ⟨n, hn, hid, -⟩
  exact findNode_none h n hn hid

theorem nodes_id_inj {w : Workflow} (hnd : (w.nodes.map (fun n => n.id)).Nodup)
    {m n : WorkflowNode} (hm : m ∈ w.nodes) (hn : n ∈ w.nodes)
    (h : m.id = n.id) : m = n :=
  List.inj_on_of_nodup_map hnd hm hn h

theorem edge_dep_of_find {w : Workflow}
    (hnd : (w.nodes.map (fun n => n.id)).Nodup) {a b : String}
    {n : WorkflowNode} (hfind : findNode w a = some n)
    (he : Edge w a b) : b ∈ n.dependencies := by
  obtain ⟨m, hm, hmid, hb⟩ := he
  obtain ⟨hn, hnid⟩ := findNode_some hfind
  have hmn : m = n := nodes_id_inj hnd hm hn (by rw [hmid, hnid])
  exact hmn ▸ hb

theorem id_mem_univIds {w : Workflow} {n : WorkflowNode} (hn : n ∈ w.nodes) :
    n.id ∈ univIds w := by
  rw [univIds, List.mem_dedup, List.mem_append]
  exact Or.inl (List.mem_map_of_mem _ hn)

theorem dep_mem_univIds {w : Workflow} {n : WorkflowNode} (hn : n ∈ w.nodes)
    {d : String} (hd : d ∈ n.dependencies) : d ∈ univIds w := by
  rw [univIds, List.mem_dedup, List.mem_append]
  refine Or.inr (List.mem_flatMap.mpr ⟨n, hn, hd⟩)

/-- The recursion stack read bottom-up is a chain of dependency edges: each
entry is a dependency of the entry pushed just before it. -/
def StackChain (w : Workflow) : List String → Prop
  | [] => True
  | [_] => True
  | a :: b :: t => Edge w b a ∧ StackChain w (b :: t)

theorem stackChain_reach {w : Workflow} :
    ∀ {t : List String} {hd x : String}, StackChain w (hd :: t) →
      x ∈ hd :: t → Relation.ReflTransGen (Edge w) x hd := by
  intro t
  induction t with
  | nil =>
    intro hd x _ hx
    have : x = hd := by simpa using hx
    exact this ▸ Relation.ReflTransGen.refl
  | cons b t ih =>
    intro hd x hc hx
    obtain ⟨he, hc'⟩ := hc
    rcases List.mem_cons.mp hx with rfl | hx'
    · exact Relation.ReflTransGen.refl
    · exact (ih hc' hx').tail he

theorem stackChain_cons {w : Workflow} {r : List String} {i : String}
    (hc : StackChain w r) (hp : ∀ hd, r.head? = some hd → Edge w hd i) :
    StackChain w (i :: r) := by
  cases r with
  | nil => trivial
  | cons hd t => exact ⟨hp hd rfl, hc⟩

/-- `runDeps` is monotone in `visited` and restores the stack on a `false`
answer, provided each step is. -/
theorem runDeps_out
    {step : String → List String → List String →
      Option (Bool × List String × List String)}
    (hstep : ∀ d v r out, step d v r = some out →
      v ⊆ out.2.1 ∧ (out.1 = false → out.2.2 = r)) :
    ∀ ds v r out, runDeps step ds v r = some out →
      v ⊆ out.2.1 ∧ (out.1 = false → out.2.2 = r) := by
  intro ds
  induction ds with
  | nil =>
    intro v r out h
    rw [runDeps] at h
    obtain rfl := Option.some_inj.mp h.symm
    exact ⟨List.Subset.refl _, fun _ => rfl⟩
  | cons d ds ih =>
    intro v r out h
    rw [runDeps] at h
    cases hs : step d v r with
    | none => simp only [hs] at h; exact Option.noConfusion h
    | some res =>
      simp only [hs] at h
      obtain ⟨hsub0, hr0⟩ := hstep d v r res hs
      by_cases hb : res.1 = true
      · rw [if_pos hb] at h
        obtain rfl := Option.some_inj.mp h
        exact ⟨hsub0, fun hfalse => absurd hfalse (by rw [hb]; simp)⟩
      · rw [if_neg hb] at h
        obtain ⟨hsub1, hr1⟩ := ih res.2.1 res.2.2 out h
        have hres : res.2.2 = r := hr0 (Bool.not_eq_true _ ▸ hb)
        exact ⟨List.Subset.trans hsub0 hsub1,
          fun hb' => (hr1 hb').trans hres⟩

/-- `dfsNode` is monotone in `visited` and restores the stack on a `false`
answer. -/
theorem dfs_out (w : Workflow) :
    ∀ fuel i v r out, dfsNode w fuel i v r = some out →
      v ⊆ out.2.1 ∧ (out.1 = false → out.2.2 = r) := by
  intro fuel
  induction fuel with
  | zero => intro i v r out h; simp [dfsNode] at h
  | succ fuel ih =>
    intro i v r out h
    rw [dfsNode] at h
    by_cases hr : r.contains i = true
    · rw [if_pos hr] at h
      obtain rfl := Option.some_inj.mp h.symm
      exact ⟨List.Subset.refl _, fun _ => rfl⟩
    · rw [if_neg hr] at h
      by_cases hv : v.contains i = true
      · rw [if_pos hv] at h
        obtain rfl := Option.some_inj.mp h.symm
        exact ⟨List.Subset.refl _, fun _ => rfl⟩
      · rw [if_neg hv] at h
        cases hf : findNode w i with
        | none =>
          simp only [hf] at h
          obtain rfl := Option.some_inj.mp h.symm
          refine ⟨List.subset_cons_self _ _, fun _ => ?_⟩
          exact List.erase_cons_head i r
        | some node =>
          simp only [hf] at h
          cases hrd : runDeps (dfsNode w fuel) node.dependencies (i :: v) (i :: r) with
          | none => simp only [hrd] at h; exact Option.noConfusion h
          | some res =>
            simp only [hrd] at h
            have hout := runDeps_out
              (fun d vd rd outd hdd => ih d vd rd outd hdd)
              node.dependencies (i :: v) (i :: r) res hrd
            have hsub : v ⊆ res.2.1 :=
              List.Subset.trans (List.subset_cons_self _ _) hout.1
            by_cases hb : res.1 = true
            · rw [if_pos hb] at h
              obtain rfl := Option.some_inj.mp h
              exact ⟨hsub, fun hfalse => absurd hfalse (by rw [hb]; simp)⟩
            · rw [if_neg hb] at h
              obtain rfl := Option.some_inj.mp h.symm
              refine ⟨hsub, fun _ => ?_⟩
              rw [hout.2 (Bool.not_eq_true _ ▸ hb), List.erase_cons_head]

/-- Soundness of `runDeps` answering `true`, given soundness of the step. -/
theorem runDeps_true_cycle {w : Workflow}
    {step : String → List String → List String →
      Option (Bool × List String × List String)}
    (hout : ∀ d v r out, step d v r = some out →
      v ⊆ out.2.1 ∧ (out.1 = false → out.2.2 = r))
    (htrue : ∀ d v r out, step d v r = some out → out.1 = true →
      StackChain w r → (∀ hd, r.head? = some hd → Edge w hd d) → HasCycle w) :
    ∀ ds v r out, runDeps step ds v r = some out → out.1 = true →
      StackChain w r → (∀ d ∈ ds, ∀ hd, r.head? = some hd → Edge w hd d) →
      HasCycle w := by
  intro ds
  induction ds with
  | nil =>
    intro v r out h htr
    rw [runDeps] at h
    obtain rfl := Option.some_inj.mp h.symm
    exact absurd htr (by simp)
  | cons d ds ih =>
    intro v r out h htr hc hp
    rw [runDeps] at h
    cases hs : step d v r with
    | none => simp only [hs] at h; exact Option.noConfusion h
    | some res =>
      simp only [hs] at h
      by_cases hb : res.1 = true
      · exact htrue d v r res hs hb hc (hp d (by simp))
      · rw [if_neg hb] at h
        have hres : res.2.2 = r := (hout d v r res hs).2 (Bool.not_eq_true _ ▸ hb)
        refine ih res.2.1 res.2.2 out h htr (hres ▸ hc) ?_
        intro d' hd' hd0 hhd
        exact hp d' (List.mem_cons_of_mem _ hd') hd0 (hres ▸ hhd)

/-- Soundness: when `dfsNode` answers `true` from a stack whose entries form
an edge chain and whose head (when any) has an edge to the probed id, the
dependency relation has a cycle. -/
theorem dfs_true_cycle (w : Workflow) :
    ∀ fuel i v r out, dfsNode w fuel i v r = some out → out.1 = true →
      StackChain w r → (∀ hd, r.head? = some hd → Edge w hd i) →
      HasCycle w := by
  intro fuel
  induction fuel with
  | zero => intro i v r out h; simp [dfsNode] at h
  | succ fuel ih =>
    intro i v r out h htr hc hp
    rw [dfsNode] at h
    by_cases hr : r.contains i = true
    · have hmem : i ∈ r := List.elem_iff.mp hr
      cases r with
      | nil => simp at hmem
      | cons hd t =>
        exact ⟨i, Relation.TransGen.tail' (stackChain_reach hc hmem) (hp hd rfl)⟩
    · rw [if_neg hr] at h
      by_cases hv : v.contains i = true
      · rw [if_pos hv] at h
        obtain rfl := Option.some_inj.mp h.symm
        exact absurd htr (by simp)
      · rw [if_neg hv] at h
        cases hf : findNode w i with
        | none =>
          simp only [hf] at h
          obtain rfl := Option.some_inj.mp h.symm
          exact absurd htr (by simp)
        | some node =>
          simp only [hf] at h
          cases hrd : runDeps (dfsNode w fuel) node.dependencies (i :: v) (i :: r) with
          | none => simp only [hrd] at h; exact Option.noConfusion h
          | some res =>
            simp only [hrd] at h
            by_cases hb : res.1 = true
            · have hc1 : StackChain w (i :: r) := stackChain_cons hc hp
              refine runDeps_true_cycle
                (fun d vd rd outd hdd => dfs_out w fuel d vd rd outd hdd)
                (fun d vd rd outd hdd htd hcd hpd => ih d vd rd outd hdd htd hcd hpd)
                node.dependencies (i :: v) (i :: r) res hrd hb hc1 ?_
              intro d hd hd0 hhd
              have hdi : i = hd0 := by simpa using hhd
              exact hdi ▸ edge_of_findNode hf hd
            · rw [if_neg hb] at h
              obtain rfl := Option.some_inj.mp h.symm
              exact absurd htr (by simp)

/-- Fuel sufficiency for `runDeps` over `dfsNode`. -/
theorem runDeps_total (w : Workflow) (fuel : Nat)
    (hstep : ∀ d v r, d ∈ univIds w → v ⊆ univIds w → v.Nodup →
      (univIds w).length + 1 ≤ fuel + v.length →
      ∃ out, dfsNode w fuel d v r = some out ∧
        out.2.1 ⊆ univIds w ∧ out.2.1.Nodup) :
    ∀ ds v r, (∀ d ∈ ds, d ∈ univIds w) → v ⊆ univIds w → v.Nodup →
      (univIds w).length + 1 ≤ fuel + v.length →
      ∃ out, runDeps (dfsNode w fuel) ds v r = some out ∧
        out.2.1 ⊆ univIds w ∧ out.2.1.Nodup := by
  intro ds
  induction ds with
  | nil =>
    intro v r _ hv hnd _
    exact ⟨(false, v, r), by rw [runDeps], hv, hnd⟩
  | cons d ds ih =>
    intro v r hds hv hnd hlen
    obtain ⟨res, hs, hv0, hnd0⟩ := hstep d v r (hds d (by simp)) hv hnd hlen
    by_cases hb : res.1 = true
    · exact ⟨res, by simp only [runDeps, hs]; rw [if_pos hb], hv0, hnd0⟩
    · have hvsub : v ⊆ res.2.1 := (dfs_out w fuel d v r res hs).1
      have hle : v.length ≤ res.2.1.length :=
        (List.subperm_of_subset hnd hvsub).length_le
      obtain ⟨out, hrun, ho1, ho2⟩ := ih res.2.1 res.2.2
        (fun d' hd' => hds d' (List.mem_cons_of_mem _ hd')) hv0 hnd0 (by omega)
      exact ⟨out, by simp only [runDeps, hs]; rw [if_neg hb]; exact hrun, ho1, ho2⟩

/-- Fuel sufficiency: with fuel exceeding the number of unvisited ids,
`dfsNode` never exhausts, and its visited set stays within the id universe. -/
theorem dfs_total (w : Workflow) :
    ∀ fuel i v r, i ∈ univIds w → v ⊆ univIds w → v.Nodup →
      (univIds w).length + 1 ≤ fuel + v.length →
      ∃ out, dfsNode w fuel i v r = some out ∧
        out.2.1 ⊆ univIds w ∧ out.2.1.Nodup := by
  intro fuel
  induction fuel with
  | zero =>
    intro i v r _ hv hnd hlen
    exfalso
    have hle := (List.subperm_of_subset hnd hv).length_le
    omega
  | succ fuel ih =>
    intro i v r hi hv hnd hlen
    rw [dfsNode]
    by_cases hr : r.contains i = true
    · rw [if_pos hr]; exact ⟨(true, v, r), rfl, hv, hnd⟩
    · rw [if_neg hr]
      by_cases hvc : v.contains i = true
      · rw [if_pos hvc]; exact ⟨(false, v, r), rfl, hv, hnd⟩
      · rw [if_neg hvc]
        have hiv : i ∉ v := fun hm => hvc (List.elem_iff.mpr hm)
        have hv1 : (i :: v) ⊆ univIds w := by
          intro x hx
          rcases List.mem_cons.mp hx with rfl | hx'
          exacts [hi, hv hx']
        have hnd1 : (i :: v).Nodup := List.nodup_cons.mpr ⟨hiv, hnd⟩
        have hlen1 : (univIds w).length + 1 ≤ fuel + (i :: v).length := by
          simp only [List.length_cons]; omega
        cases hf : findNode w i with
        | none =>
          exact ⟨(false, i :: v, (i :: r).erase i), by simp [hf], hv1, hnd1⟩
        | some node =>
          have hdeps : ∀ d ∈ node.dependencies, d ∈ univIds w :=
            fun d hd => dep_mem_univIds (findNode_some hf).1 hd
          obtain ⟨res, hrd, hv0, hnd0⟩ :=
            runDeps_total w fuel
              (fun d vd rd hd hvd hndd hlend => ih d vd rd hd hvd hndd hlend)
              node.dependencies (i :: v) (i :: r) hdeps hv1 hnd1 hlen1
          by_cases hb : res.1 = true
          · exact ⟨res, by simp [hf, hrd, hb], hv0, hnd0⟩
          · exact ⟨(false, res.2.1, res.2.2.erase i),
              by simp [hf, hrd, hb], hv0, hnd0⟩

/-- The completeness invariant: finished ("black") ids — visited but not on
the stack — are edge-closed into `visited`, cannot reach any stack entry, and
lie on no cycle. -/
def PreInv (w : Workflow) (v r : List String) : Prop :=
  (∀ x ∈ v, x ∉ r → ∀ y, Edge w x y → y ∈ v) ∧
  (∀ x ∈ v, x ∉ r → ∀ z ∈ r, ¬ Relation.ReflTransGen (Edge w) x z) ∧
  (∀ x ∈ v, x ∉ r → ¬ Relation.TransGen (Edge w) x x)

/-- Everything reachable from a black id is black. -/
theorem black_reach {w : Workflow} {v r : List String} (h : PreInv w v r) :
    ∀ {x y : String}, Relation.ReflTransGen (Edge w) x y →
      x ∈ v → x ∉ r → y ∈ v ∧ y ∉ r := by
  obtain ⟨h1, h2, -⟩ := h
  intro x y hreach
  induction hreach using Relation.ReflTransGen.head_induction_on with
  | refl => intro hx hxr; exact ⟨hx, hxr⟩
  | head hac hcy ih =>
    rename_i a c
    intro ha har
    have hcv : c ∈ v := h1 a ha har c hac
    have hcr : c ∉ r := fun hcr =>
      h2 a ha har c hcr (Relation.ReflTransGen.single hac)
    exact ih hcv hcr

theorem preInv_nil (w : Workflow) : PreInv w [] [] :=
  ⟨fun x hx => absurd hx (List.not_mem_nil x),
   fun x hx => absurd hx (List.not_mem_nil x),
   fun x hx => absurd hx (List.not_mem_nil x)⟩

/-- Completeness invariant through the dependency loop, given it holds for
each step. -/
theorem runDeps_false_pre {w : Workflow} (fuel : Nat)
    (hstep : ∀ d v r out, PreInv w v r → dfsNode w fuel d v r = some out →
      out.1 = false → PreInv w out.2.1 r ∧ d ∈ out.2.1 ∧ d ∉ r ∧ v ⊆ out.2.1) :
    ∀ ds v r out, PreInv w v r →
      runDeps (dfsNode w fuel) ds v r = some out → out.1 = false →
      PreInv w out.2.1 r ∧ v ⊆ out.2.1 ∧ ∀ d ∈ ds, d ∈ out.2.1 ∧ d ∉ r := by
  intro ds
  induction ds with
  | nil =>
    intro v r out hpre h _
    rw [runDeps] at h
    obtain rfl := Option.some_inj.mp h.symm
    exact ⟨hpre, List.Subset.refl _, by simp⟩
  | cons d ds ih =>
    intro v r out hpre h hfa
    rw [runDeps] at h
    cases hs : dfsNode w fuel d v r with
    | none => simp only [hs] at h; exact Option.noConfusion h
    | some res =>
      simp only [hs] at h
      by_cases hb : res.1 = true
      · rw [if_pos hb] at h
        obtain rfl := Option.some_inj.mp h
        exact absurd hfa (by rw [hb]; simp)
      · rw [if_neg hb] at h
        have hbf : res.1 = false := Bool.not_eq_true _ ▸ hb
        have hres : res.2.2 = r := (dfs_out w fuel d v r res hs).2 hbf
        obtain ⟨hpre0, hdv0, hdr, hsub0⟩ := hstep d v r res hpre hs hbf
        rw [hres] at h
        obtain ⟨hpre', hsub', hds'⟩ := ih res.2.1 r out hpre0 h hfa
        refine ⟨hpre', List.Subset.trans hsub0 hsub', ?_⟩
        intro d' hd'
        rcases List.mem_cons.mp hd' with rfl | hd''
        · exact ⟨hsub' hdv0, hdr⟩
        · exact hds' d' hd''

/-- Completeness invariant: a `false` answer of `dfsNode` preserves the black
invariant (with the probed id now black), for workflows with unique node
ids. -/
theorem dfs_false_pre (w : Workflow)
    (hnd : (w.nodes.map (fun n => n.id)).Nodup) :
    ∀ fuel i v r out, PreInv w v r → dfsNode w fuel i v r = some out →
      out.1 = false → PreInv w out.2.1 r ∧ i ∈ out.2.1 ∧ i ∉ r ∧ v ⊆ out.2.1 := by
  intro fuel
  induction fuel with
  | zero => intro i v r out _ h; simp [dfsNode] at h
  | succ fuel ih =>
    intro i v r out hpre h hfa
    rw [dfsNode] at h
    by_cases hr : r.contains i = true
    · rw [if_pos hr] at h
      obtain rfl := Option.some_inj.mp h.symm
      exact absurd hfa (by simp)
    · rw [if_neg hr] at h
      have hir : i ∉ r := fun hm => hr (List.elem_iff.mpr hm)
      by_cases hv : v.contains i = true
      · rw [if_pos hv] at h
        obtain rfl := Option.some_inj.mp h.symm
        exact ⟨hpre, List.elem_iff.mp hv, hir, List.Subset.refl _⟩
      · rw [if_neg hv] at h
        have hiv : i ∉ v := fun hm => hv (List.elem_iff.mpr hm)
        have hpre1 : PreInv w (i :: v) (i :: r) := by
          obtain ⟨h1, h2, h3⟩ := hpre
          have hblack : ∀ x, x ∈ i :: v → x ∉ i :: r → x ∈ v ∧ x ∉ r := by
            intro x hx hxr
            rcases List.mem_cons.mp hx with rfl | hx'
            · exact absurd (List.mem_cons_self _ _) hxr
            · exact ⟨hx', fun hm => hxr (List.mem_cons_of_mem _ hm)⟩
          refine ⟨?_, ?_, ?_⟩
          · intro x hx hxr y hxy
            obtain ⟨hxv, hxr'⟩ := hblack x hx hxr
            exact List.mem_cons_of_mem _ (h1 x hxv hxr' y hxy)
          · intro x hx hxr z hz hreach
            obtain ⟨hxv, hxr'⟩ := hblack x hx hxr
            rcases List.mem_cons.mp hz with rfl | hz'
            · exact hiv (black_reach ⟨h1, h2, h3⟩ hreach hxv hxr').1
            · exact h2 x hxv hxr' z hz' hreach
          · intro x hx hxr
            obtain ⟨hxv, hxr'⟩ := hblack x hx hxr
            exact h3 x hxv hxr'
        cases hf : findNode w i with
        | none =>
          simp only [hf] at h
          obtain rfl := Option.some_inj.mp h.symm
          have hnoedge : ∀ y, ¬ Edge w i y := fun y => not_edge_of_findNode_none hf
          obtain ⟨h1, h2, h3⟩ := hpre
          simp only [List.erase_cons_head]
          refine ⟨⟨?_, ?_, ?_⟩, List.mem_cons_self _ _, hir, List.subset_cons_self _ _⟩
          · intro x hx hxr y hxy
            rcases List.mem_cons.mp hx with rfl | hx'
            · exact absurd hxy (hnoedge y)
            · exact List.mem_cons_of_mem _ (h1 x hx' hxr y hxy)
          · intro x hx hxr z hz hreach
            rcases List.mem_cons.mp hx with rfl | hx'
            · rcases Relation.ReflTransGen.cases_head hreach with rfl | ⟨c, hic, -⟩
              · exact hir hz
              · exact hnoedge c hic
            · exact h2 x hx' hxr z hz hreach
          · intro x hx hxr
            rcases List.mem_cons.mp hx with rfl | hx'
            · intro htg
              obtain ⟨c, hic, -⟩ := Relation.TransGen.head'_iff.mp htg
              exact hnoedge c hic
            · exact h3 x hx' hxr
        | some node =>
          simp only [hf] at h
          cases hrd : runDeps (dfsNode w fuel) node.dependencies (i :: v) (i :: r) with
          | none => simp only [hrd] at h; exact Option.noConfusion h
          | some res =>
            simp only [hrd] at h
            by_cases hb : res.1 = true
            · rw [if_pos hb] at h
              obtain rfl := Option.some_inj.mp h
              exact absurd hfa (by rw [hb]; simp)
            · rw [if_neg hb] at h
              obtain rfl := Option.some_inj.mp h.symm
              have hbf : res.1 = false := Bool.not_eq_true _ ▸ hb
              have hres : res.2.2 = i :: r :=
                (runDeps_out (fun d vd rd outd hdd => dfs_out w fuel d vd rd outd hdd)
                  node.dependencies (i :: v) (i :: r) res hrd).2 hbf
              obtain ⟨hpre0, hsub0, hds0⟩ :=
                runDeps_false_pre fuel
                  (fun d vd rd outd hpd hdd hfd => ih d vd rd outd hpd hdd hfd)
                  node.dependencies (i :: v) (i :: r) res hpre1 hrd hbf
              have hiv0 : i ∈ res.2.1 := hsub0 (List.mem_cons_self _ _)
              obtain ⟨g1, g2, g3⟩ := hpre0
              have hedge_i : ∀ y, Edge w i y → y ∈ node.dependencies :=
                fun y hy => edge_dep_of_find hnd hf hy
              have hblack0 : ∀ x, x ∈ res.2.1 → x ∉ r → x ≠ i → x ∉ i :: r := by
                intro x _ hxr hxi hm
                rcases List.mem_cons.mp hm with h' | h'
                · exact hxi h'
                · exact hxr h'
              simp only [hres, List.erase_cons_head]
              refine ⟨⟨?_, ?_, ?_⟩, hiv0, hir,
                fun x hx => hsub0 (List.mem_cons_of_mem _ hx)⟩
              · intro x hx hxr y hxy
                by_cases hxi : x = i
                · subst hxi
                  exact (hds0 y (hedge_i y hxy)).1
                · exact g1 x hx (hblack0 x hx hxr hxi) y hxy
              · intro x hx hxr z hz hreach
                by_cases hxi : x = i
                · subst hxi
                  rcases Relation.ReflTransGen.cases_head hreach with rfl | ⟨c, hic, hcz⟩
                  · exact hxr hz
                  · obtain ⟨hcv0, hcir⟩ := hds0 c (hedge_i c hic)
                    exact g2 c hcv0 hcir z (List.mem_cons_of_mem _ hz) hcz
                · exact g2 x hx (hblack0 x hx hxr hxi) z (List.mem_cons_of_mem _ hz) hreach
              · intro x hx hxr
                by_cases hxi : x = i
                · subst hxi
                  intro htg
                  obtain ⟨c, hic, hci⟩ := Relation.TransGen.head'_iff.mp htg
                  obtain ⟨hcv0, hcir⟩ := hds0 c (hedge_i c hic)
                  exact g2 c hcv0 hcir x (List.mem_cons_self _ _) hci
                · exact g3 x hx (hblack0 x hx hxr hxi)

/-- The error accumulator of the cycle pass only grows. -/
theorem cycleGo_acc_mono (w : Workflow) (F : Nat) :
    ∀ ns v r acc errs, cycleErrorsGo w F ns v r acc = some errs →
      ∃ ex, errs = acc ++ ex := by
  intro ns
  induction ns with
  | nil =>
    intro v r acc errs h
    rw [cycleErrorsGo] at h
    obtain rfl := Option.some_inj.mp h
    exact ⟨[], by simp⟩
  | cons n ns ih =>
    intro v r acc errs h
    rw [cycleErrorsGo] at h
    cases hd : dfsNode w F n.id v r with
    | none => simp only [hd] at h; exact Option.noConfusion h
    | some res =>
      obtain ⟨b, v', r'⟩ := res
      simp only [hd] at h
      cases b with
      | false =>
        simpa using ih v' r' acc errs h
      | true =>
        obtain ⟨ex, hex⟩ := ih v' r' (acc ++ [cycleMsg n.id]) errs (by simpa using h)
        exact ⟨[cycleMsg n.id] ++ ex, by rw [hex, List.append_assoc]⟩

/-- The cycle pass never exhausts its fuel. -/
theorem cycleGo_total (w : Workflow) :
    ∀ ns v r acc, (∀ n ∈ ns, n.id ∈ univIds w) → v ⊆ univIds w → v.Nodup →
      ∃ errs, cycleErrorsGo w ((univIds w).length + 1) ns v r acc = some errs := by
  intro ns
  induction ns with
  | nil => exact fun v r acc _ _ _ => ⟨acc, by rw [cycleErrorsGo]⟩
  | cons n ns ih =>
    intro v r acc hns hv hnd
    obtain ⟨⟨b, v', r'⟩, hd, hv', hnd'⟩ :=
      dfs_total w ((univIds w).length + 1) n.id v r (hns n (by simp)) hv hnd
        (by omega)
    obtain ⟨errs, herrs⟩ := ih v' r' (if b then acc ++ [cycleMsg n.id] else acc)
      (fun m hm => hns m (List.mem_cons_of_mem _ hm)) hv' hnd'
    exact ⟨errs, by rw [cycleErrorsGo, hd]; exact herrs⟩

/-- Soundness of the whole cycle pass: starting from a clean stack, any
reported error means the dependency relation has a cycle. -/
theorem cycleGo_sound (w : Workflow) (F : Nat) :
    ∀ ns v r acc errs, cycleErrorsGo w F ns v r acc = some errs →
      (acc = [] → r = []) → (acc ≠ [] → HasCycle w) →
      errs ≠ [] → HasCycle w := by
  intro ns
  induction ns with
  | nil =>
    intro v r acc errs h hclean hcyc hne
    rw [cycleErrorsGo] at h
    obtain rfl := Option.some_inj.mp h
    exact hcyc hne
  | cons n ns ih =>
    intro v r acc errs h hclean hcyc hne
    rw [cycleErrorsGo] at h
    cases hd : dfsNode w F n.id v r with
    | none => simp only [hd] at h; exact Option.noConfusion h
    | some res =>
      obtain ⟨b, v', r'⟩ := res
      simp only [hd] at h
      cases b with
      | true =>
        by_cases hacc : acc = []
        · subst hacc
          have hrnil : r = [] := hclean rfl
          subst hrnil
          exact dfs_true_cycle w F n.id v [] (true, v', r') hd rfl trivial
            (fun hd' hh => by simp at hh)
        · exact hcyc hacc
      | false =>
        have hr' : r' = r := (dfs_out w F n.id v r (false, v', r') hd).2 rfl
        rw [hr'] at h
        exact ih v' r acc errs (by simpa using h) hclean hcyc hne

/-- Completeness of the whole cycle pass: if no error is reported (from a
clean stack), every processed node id ends up black, so no processed node
lies on a cycle. -/
theorem cycleGo_complete (w : Workflow)
    (hnd : (w.nodes.map (fun n => n.id)).Nodup) :
    ∀ ns v acc errs, PreInv w v [] →
      cycleErrorsGo w ((univIds w).length + 1) ns v [] acc = some errs →
      errs = acc →
      ∃ vf, PreInv w vf [] ∧ v ⊆ vf ∧ (∀ n ∈ ns, n.id ∈ vf) := by
  intro ns
  induction ns with
  | nil =>
    intro v acc errs hpre _ _
    exact ⟨v, hpre, List.Subset.refl _, by simp⟩
  | cons n ns ih =>
    intro v acc errs hpre h heq
    rw [cycleErrorsGo] at h
    cases hd : dfsNode w ((univIds w).length + 1) n.id v [] with
    | none => simp only [hd] at h; exact Option.noConfusion h
    | some res =>
      obtain ⟨b, v', r'⟩ := res
      simp only [hd] at h
      cases b with
      | true =>
        exfalso
        obtain ⟨ex, hex⟩ := cycleGo_acc_mono w ((univIds w).length + 1) ns v' r'
          (acc ++ [cycleMsg n.id]) errs (by simpa using h)
        have hlen := congrArg List.length hex
        rw [heq] at hlen
        simp [List.length_append] at hlen
      | false =>
        have hr' : r' = [] := (dfs_out w _ n.id v [] (false, v', r') hd).2 rfl
        subst hr'
        obtain ⟨hpre', hmem, -, hsub⟩ :=
          dfs_false_pre w hnd _ n.id v [] (false, v', []) hpre hd rfl
        obtain ⟨vf, hprf, hsub', hns⟩ := ih v' acc errs hpre' (by simpa using h) heq
        exact ⟨vf, hprf, List.Subset.trans hsub hsub',
          fun m hm => by
            rcases List.mem_cons.mp hm with rfl | hm'
            · exact hsub' hmem
            · exact hns m hm'⟩

/-- Every dangling `(node, dependency)` pair contributes its error message. -/
theorem dangling_mem (w : Workflow) {n : WorkflowNode} (hn : n ∈ w.nodes)
    {d : String} (hd : d ∈ n.dependencies) (hmiss : ∀ m ∈ w.nodes, m.id ≠ d) :
    danglingMsg n.id d ∈ danglingErrors w := by
  rw [danglingErrors]
  refine List.mem_flatMap.mpr ⟨n, hn, ?_⟩
  refine List.mem_map.mpr ⟨d, ?_, rfl⟩
  refine List.mem_filter.mpr ⟨hd, ?_⟩
  simp only [Bool.not_eq_true']
  rw [List.any_eq_false]
  intro m hm
  simpa using hmiss m hm

/-- The referential pass reports an error iff some dependency is dangling. -/
theorem dangling_errors_iff (w : Workflow) :
    danglingErrors w ≠ [] ↔ HasDangling w := by
  constructor
  · intro hne
    obtain ⟨e, he⟩ := List.exists_mem_of_ne_nil _ hne
    rw [danglingErrors] at he
    obtain ⟨n, hn, he'⟩ := List.mem_flatMap.mp he
    obtain ⟨d, hd, -⟩ := List.mem_map.mp he'
    obtain ⟨hdd, hfil⟩ := List.mem_filter.mp hd
    refine ⟨n, hn, d, hdd, ?_⟩
    intro m hm
    simp only [Bool.not_eq_true'] at hfil
    rw [List.any_eq_false] at hfil
    simpa using hfil m hm
  · rintro ⟨n, hn, d, hd, hmiss⟩
    exact List.ne_nil_of_mem (dangling_mem w hn hd hmiss)

/-- C7: for every workflow (with unique node ids, per the data model),
`validateWorkflow` succeeds and reports at least one error iff the graph has
a dependency cycle or a dependency naming no node; moreover the checks
accumulate: every dangling `(node, dependency)` pair contributes its error
even when cycle errors are present, so no check stops at the first error. -/
theorem c7_validate_iff (w : Workflow)
    (hnd : (w.nodes.map (fun n => n.id)).Nodup) :
    ∃ errs, validateWorkflow w = some (errs.isEmpty, errs) ∧
      (errs ≠ [] ↔ (HasCycle w ∨ HasDangling w)) ∧
      (∀ n ∈ w.nodes, ∀ d ∈ n.dependencies,
        (∀ m ∈ w.nodes, m.id ≠ d) → danglingMsg n.id d ∈ errs) := by
  obtain ⟨cyc, hcyc⟩ := cycleGo_total w w.nodes [] [] []
    (fun n hn => id_mem_univIds hn) (by simp) (by simp)
  refine ⟨cyc ++ danglingErrors w, ?_, ⟨?_, ?_⟩, ?_⟩
  · rw [validateWorkflow, hcyc]
  · intro hne
    by_cases hc : cyc = []
    · right
      rw [hc, List.nil_append] at hne
      exact (dangling_errors_iff w).mp hne
    · left
      exact cycleGo_sound w ((univIds w).length + 1) w.nodes [] [] [] cyc hcyc
        (fun _ => rfl) (fun habs => absurd rfl habs) hc
  · intro hcd hnil
    obtain ⟨hcnil, hdnil⟩ := List.append_eq_nil.mp hnil
    rcases hcd with hcycle | hdang
    · obtain ⟨vf, hpre, -, hids⟩ := cycleGo_complete w hnd w.nodes [] [] cyc
        (preInv_nil w) hcyc hcnil
      obtain ⟨a, hTG⟩ := hcycle
      obtain ⟨c, hac, -⟩ := Relation.TransGen.head'_iff.mp hTG
      obtain ⟨n, hn, hnid, -⟩ := hac
      exact hpre.2.2 a (hnid ▸ hids n hn) (List.not_mem_nil a) hTG
    · exact (dangling_errors_iff w).mpr hdang hdnil
  · intro n hn d hd hmiss
    exact List.mem_append_right _ (dangling_mem w hn hd hmiss)

/-- C7 witness: the validation theorem applied to the concrete linear graph
`A → B → C`, whose node ids are distinct. -/
theorem c7_witness :
    (c9workflow.nodes.map (fun n => n.id)).Nodup ∧
    ∃ errs, validateWorkflow c9workflow = some (errs.isEmpty, errs) ∧
      (errs ≠ [] ↔ (HasCycle c9workflow ∨ HasDangling c9workflow)) ∧
      (∀ n ∈ c9workflow.nodes, ∀ d ∈ n.dependencies,
        (∀ m ∈ c9workflow.nodes, m.id ≠ d) → danglingMsg n.id d ∈ errs) :=
  ⟨by decide, c7_validate_iff c9workflow (by decide)⟩

end BrandAGI
